import Mathlib

/-!
Verification development for the lerp2zero lookahead limiter.

The per-sample limiting engine of `src/lib.rs` is embedded shallowly over
exact rational arithmetic: every `f32` scalar of the Rust code becomes a
`Rat`, machine floating point being modelled as exact arithmetic.  The
easing curves (built by `build_envelope` from `src/easing.rs`) enter the
per-sample engine only through their `process` method, so they are carried
as opaque function parameters `atkCurve`, `relCurve` of the parameter
bundle; concrete instantiations use `id`, which the code realises with the
default `linearity = 1` (a `LinearBlend` with blend factor 1).  Likewise
`release_amt.sqrt()` is carried as the parameter `relAmtSqrt`, and the dB
to gain conversion of the output stage is carried as an abstract
multiplicative monotone function.
-/

namespace Lerp2zero

/-- `lerp` from `src/lib.rs`: `a + (b - a) * t`. -/
def lerp (a b t : ℚ) : ℚ := a + (b - a) * t

/-- `calc_atk_reduction` from `src/lib.rs`: `lerp(0.0, -1.0 * db, t)`. -/
def calc_atk_reduction (db t : ℚ) : ℚ := lerp 0 (-1 * db) t

/-- `SampleDB` from `src/lib.rs`: an amplitude paired with its level in dB. -/
structure SampleDB where
  sample : ℚ
  db : ℚ
deriving DecidableEq, Repr

/-- `SampleDB::peak`: over threshold iff `db > 0`. -/
def SampleDB.isPeak (s : SampleDB) : Bool := decide (0 < s.db)

/-- `EnvState` from `src/lib.rs`: the per-channel envelope state machine. -/
inductive EnvState where
  | Hold (elapsed : ℚ)
  | Release (elapsed : ℚ)
  | Off
deriving DecidableEq, Repr

/-- Rust `f32::round`: round half away from zero. -/
def rustRound (q : ℚ) : ℤ := if 0 ≤ q then ⌊q + 1 / 2⌋ else ⌈q - 1 / 2⌉

/-- The per-block derived parameters consumed by the per-sample loop of
`Limit2zero::process` (all already converted to samples), together with the
attack and release easing curves built by `build_envelope`. -/
structure Params where
  holdLen : ℚ
  releaseLen : ℚ
  relAmtSqrt : ℚ
  atkAmt : ℚ
  lookaheadLen : ℚ
  atkCurve : ℚ → ℚ
  relCurve : ℚ → ℚ

/-- The per-channel state threaded through one iteration of the per-sample
loop: the delay line (front = oldest), the envelope state machine scalars,
and the cached peak (`CurrentPeaks` entry) of the channel. -/
structure ChanState where
  buffer : List SampleDB
  state : EnvState
  target : ℚ
  hold : ℚ
  envelope : ℚ
  peakDb : ℚ
  peakPos : ℚ
  peakLerpLen : ℚ
deriving DecidableEq, Repr

/-- The per-channel state of a freshly built `LimiterBuffer` channel
(`LimiterBuffer::new`): the buffer primed with `sampleLen` silence entries
(amplitude 0, level -100 dB), envelope machinery zeroed and `Off`, and the
cached peak initialised with `position = 2.0`, `lerp_len = 1.0`. -/
def ChanState.init (sampleLen : ℕ) : ChanState :=
  { buffer := List.replicate sampleLen { sample := 0, db := -100 }
    state := EnvState.Off
    target := 0
    hold := 0
    envelope := 0
    peakDb := 0
    peakPos := 2
    peakLerpLen := 1 }

/-- The envelope state tick (`match &mut limiter.state` in
`Limit2zero::process`): in `Hold`, snapshot from `hold` on the first tick,
increment `elapsed`, and leave for `Release(0)`/`Off` once
`elapsed >= hold + 1`; in `Release`, snapshot on the first tick, increment,
set `envelope = lerp(target, 0, rel_env.process(elapsed / (release + 1)))`,
and leave for `Off` once `elapsed >= release + 1`; in `Off`, zero the
scalars if any is nonzero. -/
def tick (P : Params) (c : ChanState) : ChanState :=
  match c.state with
  | EnvState.Hold elapsed =>
    let c1 := if elapsed = 0 then { c with target := c.hold, envelope := c.hold } else c
    let e := elapsed + 1
    if e ≥ P.holdLen + 1 then
      if rustRound P.releaseLen ≥ 1 then { c1 with state := EnvState.Release 0 }
      else { c1 with state := EnvState.Off }
    else { c1 with state := EnvState.Hold e }
  | EnvState.Release elapsed =>
    let c1 := if elapsed = 0 then { c with target := c.hold, envelope := c.hold } else c
    let e := elapsed + 1
    let t := e / (P.releaseLen + 1)
    let c2 := { c1 with envelope := lerp c1.target 0 (P.relCurve t) }
    if e ≥ P.releaseLen + 1 then { c2 with state := EnvState.Off }
    else { c2 with state := EnvState.Release e }
  | EnvState.Off =>
    if c.envelope ≠ 0 ∨ c.target ≠ 0 ∨ c.hold ≠ 0 then
      { c with envelope := 0, target := 0, hold := 0 }
    else c

/-- `CurrentPeakSingleMut::read`: advance the cached peak position, return
`None` (leaving the position restored) when the window progress
`(position + 1) / (lerp_len + 1)` exceeds 1, otherwise the eased attack
reduction for the cached peak. -/
def peakRead (ease : ℚ → ℚ) (c : ChanState) : Option ℚ × ChanState :=
  let pos := c.peakPos + 1
  let progress := (pos + 1) / (c.peakLerpLen + 1)
  if progress > 1 then (none, c)
  else (some (calc_atk_reduction c.peakDb (ease progress)), { c with peakPos := pos })

/-- One step of the full-rescan fold over the enumerated reversed buffer
(the `for (i, sample) in limiter.buffer.iter().rev().enumerate()` loop with
its `filter(peak)`): the accumulator is `(db, position, curr_reduct)`,
updated whenever an over-threshold sample's eased reduction is strictly
below the current one. -/
def scanFold (P : Params) : (ℚ × ℚ × ℚ) → List (ℕ × SampleDB) → (ℚ × ℚ × ℚ)
  | acc, [] => acc
  | acc, (i, s) :: rest =>
    scanFold P
      (if 0 < s.db then
        let t := P.atkCurve (((i : ℚ) + 1) / (P.lookaheadLen + 1))
        let reduct := calc_atk_reduction s.db t
        if reduct < acc.2.2 then (s.db, (i : ℚ), reduct) else acc
      else acc) rest

/-- The full buffer rescan of `Limit2zero::process`: fold `scanFold` over
the reversed, enumerated buffer starting from `(0, 0, 0)`. -/
def scanPeaks (P : Params) (buffer : List SampleDB) : ℚ × ℚ × ℚ :=
  scanFold P (0, 0, 0) buffer.reverse.enum

/-- The attack-candidate block of `Limit2zero::process`: on a full-rescan
sample (`lookahead_len >= 1` and `sample_id % la_acc == 0`) run the buffer
scan and, if a peak was found, cache it and emit `curr_reduct * atk_amt`;
otherwise read the cached peak, emitting `reduction * atk_amt` when the
read succeeds and `0.0` when it returns `None`. -/
def atkCandidate (P : Params) (laAcc sampleId : ℤ) (c : ChanState) : ℚ × ChanState :=
  if P.lookaheadLen ≥ 1 ∧ sampleId % laAcc = 0 then
    let r := scanPeaks P c.buffer
    if 0 < r.1 then
      (r.2.2 * P.atkAmt,
        { c with peakDb := r.1, peakPos := r.2.1, peakLerpLen := P.lookaheadLen })
    else (0, c)
  else
    match peakRead P.atkCurve c with
    | (some reduction, c1) => (reduction * P.atkAmt, c1)
    | (none, c1) => (0, c1)

/-- The state re-entered by the attack retrigger and by the safety clamp:
`Hold(0)` if `hold.round() >= 1`, else `Release(0)` if
`release.round() >= 1`, else `Off`. -/
def triggerState (P : Params) : EnvState :=
  if rustRound P.holdLen ≥ 1 then EnvState.Hold 0
  else if rustRound P.releaseLen ≥ 1 then EnvState.Release 0
  else EnvState.Off

/-- The attack retrigger of `Limit2zero::process`: adopt the candidate when
it is strictly below the current envelope, scaling the held value by
`release_amt.sqrt()`. -/
def retrigger (P : Params) (atkReduction : ℚ) (c : ChanState) : ChanState :=
  if atkReduction < c.envelope then
    { c with target := atkReduction
             hold := atkReduction * P.relAmtSqrt
             envelope := atkReduction
             state := triggerState P }
  else c

/-- The pop of the delayed sample followed by the post-pop safety clamp of
`Limit2zero::process`: `pop_front` the oldest buffered sample and, if
`delay.db + envelope > 0`, force `target = -1 * delay.db` (held value
scaled as in the retrigger) and re-enter via `triggerState`. -/
def popClamp (P : Params) (c : ChanState) : Option (SampleDB × ChanState) :=
  match c.buffer with
  | [] => none
  | delay :: rest =>
    let c1 := { c with buffer := rest }
    if delay.db + c1.envelope > 0 then
      some (delay,
        { c1 with target := -1 * delay.db
                  hold := -1 * delay.db * P.relAmtSqrt
                  envelope := -1 * delay.db
                  state := triggerState P })
    else some (delay, c1)

/-- One full per-channel iteration of the per-sample loop of
`Limit2zero::process`: push the new driven sample, tick the envelope state
machine, compute the attack candidate, retrigger, pop the delayed sample
and apply the safety clamp; the result is the delayed sample, the envelope
recorded for the stereo stage, and the updated channel state. -/
def processChannel (P : Params) (laAcc sampleId : ℤ) (newSample : SampleDB)
    (c : ChanState) : Option (SampleDB × ℚ × ChanState) :=
  let c0 := { c with buffer := c.buffer ++ [newSample] }
  let c1 := tick P c0
  let ac := atkCandidate P laAcc sampleId c1
  let c2 := retrigger P ac.1 ac.2
  (popClamp P c2).map (fun pc => (pc.1, pc.2.envelope, pc.2))

/-- `most_reduction` of `Limit2zero::process`: fold `f32::min` over the
per-channel envelopes of the sample, starting from `0.0`. -/
def mostReduction (envs : List ℚ) : ℚ := envs.foldl min 0

/-- The stereo-linked reduction applied to a channel:
`lerp(reduce, most_reduction, stereo_link)`. -/
def appliedReduction (ownEnvelope mostRed stereoLink : ℚ) : ℚ :=
  lerp ownEnvelope mostRed stereoLink

/-- The make-up gain compensation of `Limit2zero::process`:
`gain_to_db(input) / -2` when enabled, else `0` (`driveDb` standing for
`gain_to_db_fast(input)`). -/
def compensation (compensate : Bool) (driveDb : ℚ) : ℚ :=
  if compensate then driveDb / (-2) else 0

/-- The output stage of `Limit2zero::process`:
`s * db_to_gain_fast(reduce + trim + compensation)` with the dB-to-gain
conversion carried as the abstract function `dbToGain`. -/
def outputSample (dbToGain : ℚ → ℚ) (delayedSample reduce trim comp : ℚ) : ℚ :=
  delayedSample * dbToGain (reduce + trim + comp)

/-- `CurrentPeaks` from `src/lib.rs`: the structure-of-vectors cached peak
store. -/
structure CurrentPeaks where
  db : List ℚ
  position : List ℚ
  lerp_len : List ℚ
deriving DecidableEq, Repr

/-- `CurrentPeaks::get_mut`: `none` models the `"outta bounds"` panic when
`channel >= self.db.len()`, the `unwrap`ped accesses otherwise. -/
def CurrentPeaks.getChannel (p : CurrentPeaks) (channel : ℕ) : Option (ℚ × ℚ × ℚ) :=
  if p.db.length ≤ channel then none
  else do
    let d ← p.db[channel]?
    let pos ← p.position[channel]?
    let ll ← p.lerp_len[channel]?
    pure (d, pos, ll)

/-- `LimiterBuffer` from `src/lib.rs`: the structure-of-vectors per-channel
limiter state. -/
structure LimiterBuffer where
  channels : ℕ
  buffers : List (List SampleDB)
  state : List EnvState
  target : List ℚ
  hold : List ℚ
  envelope : List ℚ
  current_peaks : CurrentPeaks
deriving DecidableEq, Repr

/-- `LimiterBuffer::new`: every channel primed with `sampleLen` silence
entries (amplitude 0, level -100 dB), envelope machinery zeroed and `Off`,
cached peaks initialised to `db = 0, position = 2, lerp_len = 1`. -/
def LimiterBuffer.new (channels sampleLen : ℕ) : LimiterBuffer :=
  { channels := channels
    buffers := List.replicate channels (List.replicate sampleLen { sample := 0, db := -100 })
    state := List.replicate channels EnvState.Off
    target := List.replicate channels 0
    hold := List.replicate channels 0
    envelope := List.replicate channels 0
    current_peaks :=
      { db := List.replicate channels 0
        position := List.replicate channels 2
        lerp_len := List.replicate channels 1 } }

/-- The channel-index clamp of `LimiterBuffer::get_mut`:
`channel.clamp(0, self.channels - 1)`, which for natural indices is
`min channel (channels - 1)`. -/
def LimiterBuffer.clampChannel (b : LimiterBuffer) (channel : ℕ) : ℕ :=
  min channel (b.channels - 1)

/-- `LimiterBuffer::get_mut`: clamp the requested channel and gather the
per-channel fields; `none` models any of the `unwrap`/panic failures. -/
def LimiterBuffer.getChannel (b : LimiterBuffer) (channel : ℕ) :
    Option (List SampleDB × EnvState × ℚ × ℚ × ℚ × (ℚ × ℚ × ℚ)) :=
  let ch := b.clampChannel channel
  do
    let buf ← b.buffers[ch]?
    let st ← b.state[ch]?
    let tg ← b.target[ch]?
    let hd ← b.hold[ch]?
    let ev ← b.envelope[ch]?
    let cp ← b.current_peaks.getChannel ch
    pure (buf, st, tg, hd, ev, cp)

/-- Well-formedness of a `LimiterBuffer`: every parallel vector has length
`channels` (true by construction in `LimiterBuffer::new` and preserved by
the `&mut` accessors). -/
def LimiterBuffer.wf (b : LimiterBuffer) : Prop :=
  b.buffers.length = b.channels ∧ b.state.length = b.channels ∧
  b.target.length = b.channels ∧ b.hold.length = b.channels ∧
  b.envelope.length = b.channels ∧ b.current_peaks.db.length = b.channels ∧
  b.current_peaks.position.length = b.channels ∧
  b.current_peaks.lerp_len.length = b.channels

/-- The lookahead-change check at the top of `Limit2zero::process`: when
`lookahead.ceil() != self.lookahead_len`, report
`(lookahead / 2).ceil()` latency samples, store `lookahead.ceil()`, and
rebuild all per-channel state via `reset`, i.e. `LimiterBuffer::new` with
`lookahead.ceil()` entries; `none` when nothing changed. -/
def lookaheadCheck (lookahead storedLen : ℚ) (channels : ℕ) :
    Option (ℤ × ℚ × LimiterBuffer) :=
  if (⌈lookahead⌉ : ℚ) ≠ storedLen then
    some (⌈lookahead / 2⌉, (⌈lookahead⌉ : ℚ), LimiterBuffer.new channels (⌈lookahead⌉).toNat)
  else none

/-- Modelled from the spec (§4.2), for comparison with the code's scan: the
spec's peak-selection weight, the "factor" `age * level_db` that the
selected peak is said to maximise. -/
def specPeakFactor (age : ℕ) (db : ℚ) : ℚ := (age : ℚ) * db

/-- The eased candidate reduction the full rescan computes for one
enumerated buffer entry: `calc_atk_reduction` of the entry's level at the
eased window position `(i + 1) / (lookahead_len + 1)`. -/
def entryReduct (P : Params) (p : ℕ × SampleDB) : ℚ :=
  calc_atk_reduction p.2.db (P.atkCurve (((p.1 : ℚ) + 1) / (P.lookaheadLen + 1)))

/-- `simd_lerp` from `src/simd.rs`, one lane. -/
def simdLerp (a b t : ℚ) : ℚ := a + (b - a) * t

/-- The `idx_vec / len` lerp of one vector of `simd_max_reduction`
(`src/simd.rs`): lane `i` of the batch starting at `base_index = b` becomes
`simd_lerp(0, db, (b + i) / len)`. -/
def chunkLerped (len : ℚ) : ℕ → List ℚ → List ℚ
  | _, [] => []
  | b, d :: rest => simdLerp 0 d ((b : ℚ) / len) :: chunkLerped len (b + 1) rest

/-- One loop iteration of `simd_max_reduction`: if any lane of the batch is
over threshold, replace the running lane maxima by the lanewise
`max_mask.select(max_vec, lerped)`, else leave them unchanged. -/
def chunkStep (len : ℚ) (b : ℕ) (m vec : List ℚ) : List ℚ :=
  if vec.any (fun d => decide (0 < d)) then
    (m.zip (chunkLerped len b vec)).map (fun p => if p.1 > p.2 then p.1 else p.2)
  else m

/-- The batch loop of `simd_max_reduction`, threading `base_index`
(starting at 1) in steps of the lane count `L`. -/
def simdFold (L : ℕ) (len : ℚ) : ℕ → List ℚ → List (List ℚ) → List ℚ
  | _, m, [] => m
  | b, m, vec :: rest => simdFold L len (b + L) (chunkStep len b m vec) rest

/-- `Simd::reduce_max` over the lanes of a vector. -/
def reduceMax : List ℚ → ℚ
  | [] => 0
  | h :: t => t.foldl max h

/-- `simd_max_reduction` from `src/simd.rs`: fold the lane-batched dB
buffer, reduce the lane maxima, and negate to obtain a reduction. -/
def simd_max_reduction (L : ℕ) (chunks : List (List ℚ)) (len : ℚ) : ℚ :=
  -1 * reduceMax (simdFold L len 1 (List.replicate L 0) chunks)

/-- The running maximum of the positive-entry contributions `db * (i / len)`
over a 1-based-indexed dB list: the common normal form of the scalar scan
(with identity attack curve) and of the vectorized reduction search. -/
def maxFromPeaks (len : ℚ) : ℕ → ℚ → List ℚ → ℚ
  | _, acc, [] => acc
  | i, acc, db :: rest =>
    maxFromPeaks len (i + 1) (if 0 < db then max acc (db * ((i : ℚ) / len)) else acc) rest

/-! ### Helper lemmas about folded minima -/

theorem foldl_min_le_init (l : List ℚ) (a : ℚ) : l.foldl min a ≤ a := by
  induction l generalizing a with
  | nil => exact le_refl a
  | cons x t ih => exact le_trans (ih (min a x)) (min_le_left a x)

theorem foldl_min_le_mem (l : List ℚ) (a : ℚ) :
    ∀ x ∈ l, l.foldl min a ≤ x := by
  induction l generalizing a with
  | nil => intro x hx; cases hx
  | cons y t ih =>
    intro x hx
    rcases List.mem_cons.mp hx with h | h
    · subst h
      exact le_trans (foldl_min_le_init t (min a x)) (min_le_right a x)
    · exact ih (min a y) x h

theorem foldl_min_mem_or (l : List ℚ) (a : ℚ) :
    l.foldl min a = a ∨ l.foldl min a ∈ l := by
  induction l generalizing a with
  | nil => exact Or.inl rfl
  | cons y t ih =>
    have hfold : (y :: t).foldl min a = t.foldl min (min a y) := rfl
    rcases ih (min a y) with h | h
    · rcases le_total a y with hay | hya
      · exact Or.inl (by rw [hfold, h, min_eq_left hay])
      · refine Or.inr ?_
        rw [hfold, h, min_eq_right hya]
        exact List.mem_cons_self y t
    · exact Or.inr (by rw [hfold]; exact List.mem_cons_of_mem y h)

/-! ### Preservation lemmas for the per-sample pipeline -/

theorem tick_buffer (P : Params) (c : ChanState) : (tick P c).buffer = c.buffer := by
  rcases hst : c.state with e | e | _ <;> simp only [tick, hst] <;> split_ifs <;> rfl

theorem tick_peakDb (P : Params) (c : ChanState) : (tick P c).peakDb = c.peakDb := by
  rcases hst : c.state with e | e | _ <;> simp only [tick, hst] <;> split_ifs <;> rfl

theorem tick_peakPos (P : Params) (c : ChanState) : (tick P c).peakPos = c.peakPos := by
  rcases hst : c.state with e | e | _ <;> simp only [tick, hst] <;> split_ifs <;> rfl

theorem tick_peakLerpLen (P : Params) (c : ChanState) :
    (tick P c).peakLerpLen = c.peakLerpLen := by
  rcases hst : c.state with e | e | _ <;> simp only [tick, hst] <;> split_ifs <;> rfl

theorem retrigger_buffer (P : Params) (a : ℚ) (c : ChanState) :
    (retrigger P a c).buffer = c.buffer := by
  unfold retrigger; split_ifs <;> rfl

theorem peakRead_buffer (ease : ℚ → ℚ) (c : ChanState) :
    (peakRead ease c).2.buffer = c.buffer := by
  unfold peakRead; dsimp only; split_ifs <;> rfl

theorem atkCandidate_buffer (P : Params) (laAcc sampleId : ℤ) (c : ChanState) :
    (atkCandidate P laAcc sampleId c).2.buffer = c.buffer := by
  unfold atkCandidate
  dsimp only
  split_ifs with h1 h2
  · rfl
  · rfl
  · rcases hr : peakRead P.atkCurve c with ⟨ored, c1⟩
    have hb : c1.buffer = c.buffer := by
      have h := peakRead_buffer P.atkCurve c
      rw [hr] at h; exact h
    rcases ored with _ | red <;> simpa using hb

theorem popClamp_isSome (P : Params) (c : ChanState) (h : c.buffer ≠ []) :
    (popClamp P c).isSome := by
  rcases hb : c.buffer with _ | ⟨d, rest⟩
  · exact absurd hb h
  · unfold popClamp; rw [hb]; dsimp only; split_ifs <;> rfl

theorem isSome_map_opt {α β : Type _} (o : Option α) (f : α → β) :
    (o.map f).isSome = o.isSome := by cases o <;> rfl

theorem processChannel_isSome (P : Params) (laAcc sampleId : ℤ) (ns : SampleDB)
    (c : ChanState) : (processChannel P laAcc sampleId ns c).isSome := by
  unfold processChannel
  dsimp only
  rw [isSome_map_opt]
  apply popClamp_isSome
  rw [retrigger_buffer, atkCandidate_buffer, tick_buffer]
  simp

theorem getElem?_isSome_of_lt {α : Type _} (l : List α) (n : ℕ) (h : n < l.length) :
    l[n]?.isSome := by
  rw [List.getElem?_eq_getElem h]; rfl

/-! ### The cached-peak invariant and envelope non-positivity -/

/-- Invariant on the cached-peak fields of a channel: the stored level is
non-negative, the stored position is non-negative, and the stored window
length is at least 1.  It holds for `ChanState.init` (`db = 0`,
`position = 2`, `lerp_len = 1`) and is preserved by every per-sample
operation: the full rescan stores only a level `> 0`, a list index as
position and the current `lookahead_len >= 1`. -/
def PeakInv (c : ChanState) : Prop :=
  0 ≤ c.peakDb ∧ 0 ≤ c.peakPos ∧ 1 ≤ c.peakLerpLen

theorem peakInv_init (n : ℕ) : PeakInv (ChanState.init n) := by
  refine ⟨?_, ?_, ?_⟩ <;> norm_num [ChanState.init]

theorem scanFold_curr_nonpos (P : Params) (l : List (ℕ × SampleDB))
    (acc : ℚ × ℚ × ℚ) (h : acc.2.2 ≤ 0) : (scanFold P acc l).2.2 ≤ 0 := by
  induction l generalizing acc with
  | nil => exact h
  | cons p t ih =>
    rcases p with ⟨i, s⟩
    simp only [scanFold]
    split_ifs with h1 h2
    · exact ih _ (le_of_lt (lt_of_lt_of_le h2 h))
    · exact ih _ h
    · exact ih _ h

theorem scanFold_db_pos_nonneg (P : Params) (l : List (ℕ × SampleDB))
    (acc : ℚ × ℚ × ℚ) (h : 0 ≤ acc.1 ∧ 0 ≤ acc.2.1) :
    0 ≤ (scanFold P acc l).1 ∧ 0 ≤ (scanFold P acc l).2.1 := by
  induction l generalizing acc with
  | nil => exact h
  | cons p t ih =>
    rcases p with ⟨i, s⟩
    simp only [scanFold]
    split_ifs with h1 h2
    · exact ih _ ⟨le_of_lt h1, Nat.cast_nonneg i⟩
    · exact ih _ h
    · exact ih _ h

theorem peakRead_some_nonpos (ease : ℚ → ℚ) (c : ChanState) (hInv : PeakInv c)
    (hCurve : ∀ x, 0 < x → x ≤ 1 → 0 ≤ ease x) (r : ℚ) (c1 : ChanState)
    (h : peakRead ease c = (some r, c1)) : r ≤ 0 ∧ PeakInv c1 := by
  obtain ⟨hdb, hpos, hll⟩ := hInv
  unfold peakRead at h
  dsimp only at h
  split_ifs at h with hp
  · simp at h
  · have hden : (0 : ℚ) < c.peakLerpLen + 1 := by linarith
    have hprog0 : 0 < (c.peakPos + 1 + 1) / (c.peakLerpLen + 1) :=
      div_pos (by linarith) hden
    have hprog1 : (c.peakPos + 1 + 1) / (c.peakLerpLen + 1) ≤ 1 := not_lt.mp hp
    have he : 0 ≤ ease ((c.peakPos + 1 + 1) / (c.peakLerpLen + 1)) :=
      hCurve _ hprog0 hprog1
    rw [Prod.mk.injEq] at h
    obtain ⟨h1, h2⟩ := h
    constructor
    · rw [← Option.some.inj h1]
      have : calc_atk_reduction c.peakDb (ease ((c.peakPos + 1 + 1) / (c.peakLerpLen + 1)))
          = -(c.peakDb * ease ((c.peakPos + 1 + 1) / (c.peakLerpLen + 1))) := by
        unfold calc_atk_reduction lerp; ring
      rw [this]
      exact neg_nonpos.mpr (mul_nonneg hdb he)
    · rw [← h2]
      exact ⟨hdb, by dsimp only; linarith, hll⟩

theorem peakRead_none_eq (ease : ℚ → ℚ) (c : ChanState) (c1 : ChanState)
    (h : peakRead ease c = (none, c1)) : c1 = c := by
  unfold peakRead at h
  dsimp only at h
  split_ifs at h with hp
  · rw [Prod.mk.injEq] at h
    exact h.2.symm
  · simp at h

theorem atkCandidate_nonpos_inv (P : Params) (laAcc sampleId : ℤ) (c : ChanState)
    (hAmt : 0 ≤ P.atkAmt) (hCurve : ∀ x, 0 < x → x ≤ 1 → 0 ≤ P.atkCurve x)
    (hInv : PeakInv c) :
    (atkCandidate P laAcc sampleId c).1 ≤ 0 ∧
    PeakInv (atkCandidate P laAcc sampleId c).2 := by
  unfold atkCandidate
  dsimp only
  split_ifs with h1 h2
  · have hc := scanFold_curr_nonpos P c.buffer.reverse.enum (0, 0, 0) le_rfl
    have hdp := scanFold_db_pos_nonneg P c.buffer.reverse.enum (0, 0, 0) ⟨le_rfl, le_rfl⟩
    refine ⟨mul_nonpos_iff.mpr (Or.inr ⟨hc, hAmt⟩), le_of_lt h2, hdp.2, h1.1⟩
  · exact ⟨le_rfl, hInv⟩
  · rcases hr : peakRead P.atkCurve c with ⟨ored, c1⟩
    rcases ored with _ | red
    · have := peakRead_none_eq P.atkCurve c c1 hr
      exact ⟨le_rfl, this ▸ hInv⟩
    · obtain ⟨hred, hInv1⟩ := peakRead_some_nonpos P.atkCurve c hInv hCurve red c1 hr
      exact ⟨mul_nonpos_iff.mpr (Or.inr ⟨hred, hAmt⟩), hInv1⟩

theorem retrigger_env_nonpos (P : Params) (a : ℚ) (c : ChanState) (ha : a ≤ 0) :
    (retrigger P a c).envelope ≤ 0 := by
  unfold retrigger
  split_ifs with h
  · exact ha
  · exact le_trans (not_lt.mp h) ha

theorem retrigger_peakInv (P : Params) (a : ℚ) (c : ChanState) (h : PeakInv c) :
    PeakInv (retrigger P a c) := by
  unfold retrigger
  split_ifs <;> exact h

theorem popClamp_sum_nonpos (P : Params) (c : ChanState) (d : SampleDB)
    (c1 : ChanState) (h : popClamp P c = some (d, c1)) :
    d.db + c1.envelope ≤ 0 := by
  rcases hb : c.buffer with _ | ⟨delay, rest⟩ <;> rw [popClamp, hb] at h
  · cases h
  · dsimp only at h
    split_ifs at h with hcl
    · rw [Option.some.injEq, Prod.mk.injEq] at h
      obtain ⟨h1, h2⟩ := h
      rw [← h1, ← h2]
      dsimp only
      ring_nf
      exact le_rfl
    · rw [Option.some.injEq, Prod.mk.injEq] at h
      obtain ⟨h1, h2⟩ := h
      rw [← h1, ← h2]
      dsimp only
      exact not_lt.mp hcl

theorem popClamp_env_nonpos (P : Params) (c : ChanState) (henv : c.envelope ≤ 0)
    (d : SampleDB) (c1 : ChanState) (h : popClamp P c = some (d, c1)) :
    c1.envelope ≤ 0 := by
  rcases hb : c.buffer with _ | ⟨delay, rest⟩ <;> rw [popClamp, hb] at h
  · cases h
  · dsimp only at h
    split_ifs at h with hcl
    · rw [Option.some.injEq, Prod.mk.injEq] at h
      obtain ⟨h1, h2⟩ := h
      rw [← h2]
      dsimp only
      linarith
    · rw [Option.some.injEq, Prod.mk.injEq] at h
      obtain ⟨_, h2⟩ := h
      rw [← h2]
      exact henv

theorem popClamp_peakInv (P : Params) (c : ChanState) (hp : PeakInv c)
    (d : SampleDB) (c1 : ChanState) (h : popClamp P c = some (d, c1)) :
    PeakInv c1 := by
  rcases hb : c.buffer with _ | ⟨delay, rest⟩ <;> rw [popClamp, hb] at h
  · cases h
  · dsimp only at h
    split_ifs at h with hcl <;>
      rw [Option.some.injEq, Prod.mk.injEq] at h <;>
      obtain ⟨_, h2⟩ := h <;>
      rw [← h2] <;> exact hp

/-- Elimination form of `processChannel`: a successful per-sample step is a
successful `popClamp` of the retriggered, ticked, pushed state, and the
recorded envelope is the final channel envelope. -/
theorem processChannel_elim (P : Params) (laAcc sampleId : ℤ) (ns : SampleDB)
    (c : ChanState) (d : SampleDB) (env : ℚ) (c1 : ChanState)
    (h : processChannel P laAcc sampleId ns c = some (d, env, c1)) :
    env = c1.envelope ∧
    popClamp P (retrigger P
      (atkCandidate P laAcc sampleId (tick P { c with buffer := c.buffer ++ [ns] })).1
      (atkCandidate P laAcc sampleId (tick P { c with buffer := c.buffer ++ [ns] })).2)
      = some (d, c1) := by
  unfold processChannel at h
  dsimp only at h
  rcases hpc : popClamp P (retrigger P
      (atkCandidate P laAcc sampleId (tick P { c with buffer := c.buffer ++ [ns] })).1
      (atkCandidate P laAcc sampleId (tick P { c with buffer := c.buffer ++ [ns] })).2)
    with _ | ⟨delay, c3⟩ <;> rw [hpc] at h
  · cases h
  · simp only [Option.map_some', Option.some.injEq, Prod.mk.injEq] at h
    obtain ⟨h1, h2, h3⟩ := h
    subst h1
    subst h3
    exact ⟨h2.symm, rfl⟩

theorem tick_peakInv (P : Params) (c : ChanState) (h : PeakInv c) :
    PeakInv (tick P c) := by
  refine ⟨?_, ?_, ?_⟩
  · rw [tick_peakDb]; exact h.1
  · rw [tick_peakPos]; exact h.2.1
  · rw [tick_peakLerpLen]; exact h.2.2

/-! ### Claim theorems: C1, C2 -/

/-- Claim C2, amended (corrected).  The end-of-sample invariant holds: for
every channel and every parameter combination with `attack_amt >= 0` and an
attack curve non-negative on `(0, 1]` (true of every curve the envelope
builder produces), after every processed sample the recorded and stored
envelopes are at most 0, and the cached-peak invariant is preserved.  The
claim's further assertion that every individual write preserves
`envelope <= 0` is false for the Release interpolation (see the
counterexample): with a fractional release length the eased progress
`elapsed / (release + 1)` exceeds 1 on the final tick and the lerp
overshoots past zero; the attack-retrigger comparison and the safety clamp
restore non-positivity before the sample's reduction is recorded. -/
theorem envelope_nonpos_after_sample (P : Params) (laAcc sampleId : ℤ)
    (ns : SampleDB) (c : ChanState)
    (hAmt : 0 ≤ P.atkAmt) (hCurve : ∀ x, 0 < x → x ≤ 1 → 0 ≤ P.atkCurve x)
    (hInv : PeakInv c) (d : SampleDB) (env : ℚ) (c1 : ChanState)
    (h : processChannel P laAcc sampleId ns c = some (d, env, c1)) :
    env ≤ 0 ∧ c1.envelope ≤ 0 ∧ PeakInv c1 := by
  obtain ⟨henv, hpc⟩ := processChannel_elim P laAcc sampleId ns c d env c1 h
  have hInv0 : PeakInv ({ c with buffer := c.buffer ++ [ns] } : ChanState) := hInv
  have hInv1 := tick_peakInv P { c with buffer := c.buffer ++ [ns] } hInv0
  obtain ⟨hatk, hInv2⟩ := atkCandidate_nonpos_inv P laAcc sampleId _ hAmt hCurve hInv1
  have henv2 := retrigger_env_nonpos P
    (atkCandidate P laAcc sampleId (tick P { c with buffer := c.buffer ++ [ns] })).1
    (atkCandidate P laAcc sampleId (tick P { c with buffer := c.buffer ++ [ns] })).2 hatk
  have hInv3 := retrigger_peakInv P
    (atkCandidate P laAcc sampleId (tick P { c with buffer := c.buffer ++ [ns] })).1
    (atkCandidate P laAcc sampleId (tick P { c with buffer := c.buffer ++ [ns] })).2 hInv2
  have he := popClamp_env_nonpos P _ henv2 d c1 hpc
  have hp := popClamp_peakInv P _ hInv3 d c1 hpc
  exact ⟨henv ▸ he, he, hp⟩

/-- Counterexample to Claim C2 as stated: with the documented parameter
combination `release = 0.6` samples (e.g. 0.0125 ms at 48 kHz) and the
identity release curve (`linearity = 1`), the Release-interpolation write —
one of the operations the claim asserts preserves `envelope <= 0` — drives
the envelope from `-3/8` up to `+1/4 > 0` on the tick where
`elapsed / (release + 1) = 5/4 > 1`. -/
theorem envelope_nonpos_cex :
    ((tick
        { holdLen := 0, releaseLen := 3/5, relAmtSqrt := 1, atkAmt := 1,
          lookaheadLen := 0, atkCurve := id, relCurve := id }
        { buffer := [], state := EnvState.Release 1, target := -1, hold := -1,
          envelope := -3/8, peakDb := 0, peakPos := 2, peakLerpLen := 1 }).envelope
      = 1/4) ∧
    ((-3/8 : ℚ) ≤ 0) ∧ ¬((1/4 : ℚ) ≤ 0) := by
  refine ⟨?_, by norm_num, by norm_num⟩
  norm_num [tick, lerp]

/-- Witness for the amended C2 at a concrete quiet step: lookahead 0,
freshly primed one-sample channel, a 6 dB-hot pushed sample; the popped
silence leaves the envelope at 0. -/
theorem envelope_nonpos_after_sample_witness :
    ((0 : ℚ) ≤ 0 ∧
      ({ buffer := [{ sample := 2, db := 6 }], state := EnvState.Off, target := 0,
         hold := 0, envelope := 0, peakDb := 0, peakPos := 2,
         peakLerpLen := 1 } : ChanState).envelope ≤ 0 ∧
      PeakInv ({ buffer := [{ sample := 2, db := 6 }], state := EnvState.Off,
                 target := 0, hold := 0, envelope := 0, peakDb := 0, peakPos := 2,
                 peakLerpLen := 1 } : ChanState)) := by
  exact envelope_nonpos_after_sample
    { holdLen := 0, releaseLen := 0, relAmtSqrt := 1, atkAmt := 1,
      lookaheadLen := 0, atkCurve := id, relCurve := id }
    1 0 { sample := 2, db := 6 } (ChanState.init 1)
    (by norm_num) (fun x hx _ => le_of_lt hx) (peakInv_init 1)
    { sample := 0, db := -100 } 0 _
    (by norm_num [processChannel, tick, atkCandidate, peakRead, retrigger,
      popClamp, ChanState.init, calc_atk_reduction, lerp])

/-- Claim C1 (confirmed).  For every processed sample on every channel,
with trim in `[-1, 0]`, non-negative drive dB (drive at or above unity
gain, so the compensation is non-positive) and stereo link in `[0, 1]`:
after the post-pop safety clamp the popped sample's level plus the
channel's envelope is at most 0; the stereo-linked applied reduction never
exceeds the channel's own envelope (the channel's envelope being among the
folded ones); hence, for any multiplicative monotone positive dB-to-gain
map `g` with `g 0 = 1` and the popped amplitude bounded by `g` of its
level, the output magnitude after the gain stage is at most the ceiling
`1`. -/
theorem ceiling_guarantee (P : Params) (laAcc sampleId : ℤ) (ns : SampleDB)
    (c : ChanState) (d : SampleDB) (env : ℚ) (c1 : ChanState)
    (h : processChannel P laAcc sampleId ns c = some (d, env, c1))
    (envs : List ℚ) (henvs : env ∈ envs)
    (link : ℚ) (hlink0 : 0 ≤ link) (hlink1 : link ≤ 1)
    (trim : ℚ) (htrim0 : -1 ≤ trim) (htrim1 : trim ≤ 0)
    (compensate : Bool) (driveDb : ℚ) (hdrive : 0 ≤ driveDb)
    (g : ℚ → ℚ) (hg0 : g 0 = 1) (hgmul : ∀ a b, g (a + b) = g a * g b)
    (hgmono : Monotone g) (hgpos : ∀ x, 0 < g x)
    (hamp : |d.sample| ≤ g d.db) :
    d.db + env ≤ 0 ∧
    appliedReduction env (mostReduction envs) link ≤ env ∧
    |outputSample g d.sample (appliedReduction env (mostReduction envs) link)
        trim (compensation compensate driveDb)| ≤ 1 := by
  obtain ⟨henv, hpc⟩ := processChannel_elim P laAcc sampleId ns c d env c1 h
  have hsum : d.db + env ≤ 0 := by
    rw [henv]; exact popClamp_sum_nonpos P _ d c1 hpc
  have hmost : mostReduction envs ≤ env := foldl_min_le_mem envs 0 env henvs
  have happ : appliedReduction env (mostReduction envs) link ≤ env := by
    have hprod : (mostReduction envs - env) * link ≤ 0 :=
      mul_nonpos_iff.mpr (Or.inr ⟨by linarith, hlink0⟩)
    unfold appliedReduction lerp
    linarith
  have hcomp : compensation compensate driveDb ≤ 0 := by
    unfold compensation
    split_ifs
    · linarith [div_nonneg hdrive (by norm_num : (0:ℚ) ≤ 2)]
    · exact le_rfl
  refine ⟨hsum, happ, ?_⟩
  set X := appliedReduction env (mostReduction envs) link + trim
    + compensation compensate driveDb with hX
  have hdbX : d.db + X ≤ 0 := by
    rw [hX]; linarith
  have h1 : |outputSample g d.sample (appliedReduction env (mostReduction envs) link)
      trim (compensation compensate driveDb)| = |d.sample| * g X := by
    rw [outputSample, abs_mul, abs_of_pos (hgpos X)]
  have h2 : |d.sample| * g X ≤ g d.db * g X :=
    mul_le_mul_of_nonneg_right hamp (le_of_lt (hgpos X))
  have h3 : g d.db * g X = g (d.db + X) := (hgmul d.db X).symm
  have h4 : g (d.db + X) ≤ g 0 := hgmono hdbX
  rw [hg0] at h4
  linarith

/-- Witness for C1: the concrete quiet step of the C2 witness, with
envelopes `[0]`, link 0, trim 0, compensation off, and the constant-1
gain map. -/
theorem ceiling_guarantee_witness :
    ((-100 : ℚ) + 0 ≤ 0 ∧
      appliedReduction 0 (mostReduction [0]) 0 ≤ 0 ∧
      |outputSample (fun _ => (1 : ℚ)) 0 (appliedReduction 0 (mostReduction [0]) 0)
          0 (compensation false 0)| ≤ 1) := by
  exact ceiling_guarantee
    { holdLen := 0, releaseLen := 0, relAmtSqrt := 1, atkAmt := 1,
      lookaheadLen := 0, atkCurve := id, relCurve := id }
    1 0 { sample := 2, db := 6 } (ChanState.init 1)
    { sample := 0, db := -100 } 0
    { buffer := [{ sample := 2, db := 6 }], state := EnvState.Off, target := 0,
      hold := 0, envelope := 0, peakDb := 0, peakPos := 2, peakLerpLen := 1 }
    (by norm_num [processChannel, tick, atkCandidate, peakRead, retrigger,
      popClamp, ChanState.init, calc_atk_reduction, lerp])
    [0] (by simp) 0 le_rfl (by norm_num) 0 (by norm_num) le_rfl
    false 0 le_rfl (fun _ => 1) rfl (fun _ _ => by norm_num) monotone_const
    (fun _ => by norm_num) (by norm_num)

/-! ### Claim theorems: C6, C8, C9 -/

/-- Claim C6 (confirmed).  For every sample, with all per-channel envelopes
non-positive and at least one channel, the code's `most_reduction`
(`min` folded from `0.0` over the envelopes) is exactly the minimum of the
per-channel envelopes; each channel's applied reduction is
`lerp(own_envelope, most_reduction, stereo_link)`, which at
`stereo_link = 1` equals `most_reduction` (the minimum over channels) and
at `stereo_link = 0` equals the channel's own envelope. -/
theorem stereo_link_law (envs : List ℚ) (hne : envs ≠ [])
    (h0 : ∀ e ∈ envs, e ≤ 0) :
    (mostReduction envs ∈ envs ∧ ∀ e ∈ envs, mostReduction envs ≤ e) ∧
    (∀ env most : ℚ, appliedReduction env most 1 = most) ∧
    (∀ env most : ℚ, appliedReduction env most 0 = env) ∧
    (∀ env link : ℚ,
      appliedReduction env (mostReduction envs) link
        = lerp env (mostReduction envs) link) := by
  refine ⟨⟨?_, fun e he => foldl_min_le_mem envs 0 e he⟩, ?_, ?_, fun _ _ => rfl⟩
  · rcases foldl_min_mem_or envs 0 with h | h
    · obtain ⟨x, hx⟩ := List.exists_mem_of_ne_nil envs hne
      have h1 : mostReduction envs ≤ x := foldl_min_le_mem envs 0 x hx
      have h2 : x ≤ 0 := h0 x hx
      have h3 : mostReduction envs = 0 := h
      have : x = 0 := le_antisymm h2 (h3 ▸ h1)
      rw [mostReduction, h]
      exact this ▸ hx
    · exact h
  · intro env most; simp [appliedReduction, lerp]
  · intro env most; simp [appliedReduction, lerp]

/-- Witness for C6 at envelopes `[-2, -1]`, link extremes 1 and 0. -/
theorem stereo_link_law_witness :
    (mostReduction [-2, -1] ∈ [(-2 : ℚ), -1] ∧ mostReduction [-2, -1] ≤ -1) ∧
    appliedReduction (-1) (mostReduction [-2, -1]) 1 = mostReduction [-2, -1] ∧
    appliedReduction (-1) (mostReduction [-2, -1]) 0 = -1 := by
  have h := stereo_link_law [-2, -1] (by simp) (by intro e he; fin_cases he <;> norm_num)
  exact ⟨⟨h.1.1, h.1.2 (-1) (by simp)⟩, h.2.1 (-1) (mostReduction [-2, -1]),
    h.2.2.1 (-1) (mostReduction [-2, -1])⟩

/-- Claim C8 (confirmed).  Whenever the lookahead length in samples has a
ceiling different from the stored length, the engine reports
`ceil(lookahead_samples / 2)` latency samples, stores the new ceiling, and
rebuilds every per-channel buffer primed with `lookahead_len` entries of
silence (amplitude 0, level -100 dB), envelope state `Off` and envelopes
zero, so no stale samples survive the resize. -/
theorem lookahead_change_rebuild (lookahead storedLen : ℚ) (channels : ℕ)
    (h : (⌈lookahead⌉ : ℚ) ≠ storedLen) :
    lookaheadCheck lookahead storedLen channels
      = some (⌈lookahead / 2⌉, (⌈lookahead⌉ : ℚ),
          LimiterBuffer.new channels (⌈lookahead⌉).toNat) ∧
    (LimiterBuffer.new channels (⌈lookahead⌉).toNat).buffers
      = List.replicate channels
          (List.replicate (⌈lookahead⌉).toNat { sample := 0, db := -100 }) ∧
    (LimiterBuffer.new channels (⌈lookahead⌉).toNat).state
      = List.replicate channels EnvState.Off ∧
    (LimiterBuffer.new channels (⌈lookahead⌉).toNat).envelope
      = List.replicate channels 0 := by
  refine ⟨?_, rfl, rfl, rfl⟩
  simp [lookaheadCheck, h]

/-- Witness for C8: lookahead of 3 samples against a stored length of 0 on
2 channels reports `ceil(3 / 2) = 2` latency and reprimes 3 silence
entries per channel. -/
theorem lookahead_change_rebuild_witness :
    lookaheadCheck 3 0 2 = some (2, 3, LimiterBuffer.new 2 3) ∧
    (LimiterBuffer.new 2 3).buffers
      = List.replicate 2 (List.replicate 3 { sample := 0, db := -100 }) := by
  have h := lookahead_change_rebuild 3 0 2 (by norm_num)
  have hc1 : (⌈(3 : ℚ)⌉ : ℤ) = 3 := by norm_num
  have hc2 : (⌈(3 : ℚ) / 2⌉ : ℤ) = 2 := by
    rw [Int.ceil_eq_iff] <;> norm_num
  have hc3 : (⌈(3 : ℚ)⌉).toNat = 3 := by rw [hc1]; rfl
  constructor
  · rw [h.1, hc1, hc2, show Int.toNat 3 = 3 from rfl]; norm_num
  · have h2 := h.2.1
    rw [hc3] at h2
    exact h2

/-- Claim C9 (confirmed).  With at least one channel and well-formed
parallel vectors, the channel clamp of `LimiterBuffer::get_mut` maps any
requested index below `channels`, so the `"outta bounds"` panic of
`CurrentPeaks::get_mut` is unreachable and every per-channel access
succeeds; and the per-sample pipeline always produces a value — in
particular the `pop_front().unwrap()` after the preceding `push_back`
never fails. -/
theorem channel_clamp_no_panic (b : LimiterBuffer) (hch : 1 ≤ b.channels)
    (hwf : b.wf) (channel : ℕ) :
    b.clampChannel channel < b.channels ∧
    (b.current_peaks.getChannel (b.clampChannel channel)).isSome ∧
    (b.getChannel channel).isSome ∧
    ∀ (P : Params) (laAcc sampleId : ℤ) (ns : SampleDB) (c : ChanState),
      (processChannel P laAcc sampleId ns c).isSome := by
  obtain ⟨hb1, hb2, hb3, hb4, hb5, hb6, hb7, hb8⟩ := hwf
  have hlt : b.clampChannel channel < b.channels := by
    have := min_le_right channel (b.channels - 1)
    unfold LimiterBuffer.clampChannel
    omega
  have hcp : (b.current_peaks.getChannel (b.clampChannel channel)).isSome := by
    have hd := getElem?_isSome_of_lt b.current_peaks.db (b.clampChannel channel) (by omega)
    have hp := getElem?_isSome_of_lt b.current_peaks.position (b.clampChannel channel) (by omega)
    have hl := getElem?_isSome_of_lt b.current_peaks.lerp_len (b.clampChannel channel) (by omega)
    obtain ⟨d, hd⟩ := Option.isSome_iff_exists.mp hd
    obtain ⟨p, hp⟩ := Option.isSome_iff_exists.mp hp
    obtain ⟨l, hl⟩ := Option.isSome_iff_exists.mp hl
    simp [CurrentPeaks.getChannel, hd, hp, hl, Nat.not_le.mpr (show b.clampChannel channel < b.current_peaks.db.length by omega)]
  refine ⟨hlt, hcp, ?_, fun P laAcc sampleId ns c => processChannel_isSome P laAcc sampleId ns c⟩
  have h1 := getElem?_isSome_of_lt b.buffers (b.clampChannel channel) (by omega)
  have h2 := getElem?_isSome_of_lt b.state (b.clampChannel channel) (by omega)
  have h3 := getElem?_isSome_of_lt b.target (b.clampChannel channel) (by omega)
  have h4 := getElem?_isSome_of_lt b.hold (b.clampChannel channel) (by omega)
  have h5 := getElem?_isSome_of_lt b.envelope (b.clampChannel channel) (by omega)
  obtain ⟨v1, h1⟩ := Option.isSome_iff_exists.mp h1
  obtain ⟨v2, h2⟩ := Option.isSome_iff_exists.mp h2
  obtain ⟨v3, h3⟩ := Option.isSome_iff_exists.mp h3
  obtain ⟨v4, h4⟩ := Option.isSome_iff_exists.mp h4
  obtain ⟨v5, h5⟩ := Option.isSome_iff_exists.mp h5
  obtain ⟨v6, h6⟩ := Option.isSome_iff_exists.mp hcp
  simp [LimiterBuffer.getChannel, h1, h2, h3, h4, h5, h6]

/-- Witness for C9: a fresh 2-channel buffer, requested channel 5 clamped
to channel 1; the steady-state pipeline succeeds. -/
theorem channel_clamp_no_panic_witness :
    (LimiterBuffer.new 2 1).clampChannel 5 < 2 ∧
    ((LimiterBuffer.new 2 1).getChannel 5).isSome ∧
    (processChannel
      { holdLen := 0, releaseLen := 0, relAmtSqrt := 1, atkAmt := 1,
        lookaheadLen := 0, atkCurve := id, relCurve := id }
      1 0 { sample := 1, db := 0 } (ChanState.init 1)).isSome := by
  have h := channel_clamp_no_panic (LimiterBuffer.new 2 1) (by norm_num [LimiterBuffer.new])
    (by refine ⟨?_, ?_, ?_, ?_, ?_, ?_, ?_, ?_⟩ <;> simp [LimiterBuffer.new]) 5
  exact ⟨h.1, h.2.2.1, h.2.2.2 _ 1 0 _ _⟩

/-! ### Claim theorems: C3, C4 -/

/-- Claim C3, amended (corrected).  For a channel in `Hold(elapsed)`: on
the first tick (`elapsed = 0`) target and envelope are set from the held
value, the elapsed counter increases by exactly 1, and the machine leaves
`Hold` — to `Release(0)` if `round(release_len) >= 1`, else to `Off` —
exactly when the incremented elapsed reaches `hold_len + 1` (one sample
more than the claim's `hold_len`); on later ticks target and envelope are
untouched. -/
theorem hold_tick_timing (P : Params) (c : ChanState) (e : ℚ)
    (hst : c.state = EnvState.Hold e) :
    (tick P c).state = (if e + 1 ≥ P.holdLen + 1 then
        (if rustRound P.releaseLen ≥ 1 then EnvState.Release 0 else EnvState.Off)
      else EnvState.Hold (e + 1)) ∧
    (tick P c).target = (if e = 0 then c.hold else c.target) ∧
    (tick P c).envelope = (if e = 0 then c.hold else c.envelope) := by
  simp only [tick, hst]
  split_ifs <;> exact ⟨rfl, rfl, rfl⟩

/-- Counterexample to Claim C3 as stated: `hold_len = 1` sample, channel
entering its first Hold tick (`elapsed = 0`).  The incremented elapsed, 1,
satisfies the claim's exit condition `elapsed >= hold_len` (and
`round(release_len) >= 1` holds, so the claim would move to `Release(0)`),
yet the code remains in `Hold(1)` because its exit test is
`elapsed >= hold_len + 1`. -/
theorem hold_tick_timing_cex :
    ((1 : ℚ) ≥ (1 : ℚ)) ∧
    rustRound (5 : ℚ) ≥ 1 ∧
    (tick { holdLen := 1, releaseLen := 5, relAmtSqrt := 1, atkAmt := 1,
            lookaheadLen := 0, atkCurve := id, relCurve := id }
        { buffer := [], state := EnvState.Hold 0, target := -2, hold := -2,
          envelope := -2, peakDb := 0, peakPos := 2, peakLerpLen := 1 }).state
      = EnvState.Hold 1 ∧
    EnvState.Hold (1 : ℚ) ≠ EnvState.Release 0 := by
  refine ⟨le_rfl, ?_, ?_, by simp⟩
  · norm_num [rustRound]
  · norm_num [tick]

/-- Witness for the amended C3: `hold_len = 0`, `release_len = 0`, first
Hold tick from a held value of -3: the envelope snapshots to -3 and the
machine leaves for `Off` since `1 >= 0 + 1` and `round(0) < 1`. -/
theorem hold_tick_timing_witness :
    (tick { holdLen := 0, releaseLen := 0, relAmtSqrt := 1, atkAmt := 1,
            lookaheadLen := 0, atkCurve := id, relCurve := id }
        { buffer := [], state := EnvState.Hold 0, target := -3, hold := -3,
          envelope := -3, peakDb := 0, peakPos := 2, peakLerpLen := 1 }).state
      = EnvState.Off ∧
    (tick { holdLen := 0, releaseLen := 0, relAmtSqrt := 1, atkAmt := 1,
            lookaheadLen := 0, atkCurve := id, relCurve := id }
        { buffer := [], state := EnvState.Hold 0, target := -3, hold := -3,
          envelope := -3, peakDb := 0, peakPos := 2, peakLerpLen := 1 }).envelope
      = -3 := by
  have h := hold_tick_timing
    { holdLen := 0, releaseLen := 0, relAmtSqrt := 1, atkAmt := 1,
      lookaheadLen := 0, atkCurve := id, relCurve := id }
    { buffer := [], state := EnvState.Hold 0, target := -3, hold := -3,
      envelope := -3, peakDb := 0, peakPos := 2, peakLerpLen := 1 }
    0 rfl
  obtain ⟨h1, _, h3⟩ := h
  rw [if_pos (by norm_num), if_neg (by norm_num [rustRound])] at h1
  rw [if_pos rfl] at h3
  exact ⟨h1, h3⟩

/-- Claim C4, amended (corrected).  For a channel in `Release(elapsed)`: on
the first tick target and envelope are snapshotted from the held value;
the elapsed counter increases by exactly 1; the envelope is set to
`lerp(target, 0, release_curve.process(elapsed / (release_len + 1)))` —
the divisor is `release_len + 1`, not the claim's `release_len` — and the
machine transitions to `Off` exactly when the incremented elapsed reaches
`release_len + 1`, so the envelope relaxes over `release_len + 1`
samples. -/
theorem release_tick_law (P : Params) (c : ChanState) (e : ℚ)
    (hst : c.state = EnvState.Release e) :
    (tick P c).envelope
      = lerp (if e = 0 then c.hold else c.target) 0
          (P.relCurve ((e + 1) / (P.releaseLen + 1))) ∧
    (tick P c).state = (if e + 1 ≥ P.releaseLen + 1 then EnvState.Off
        else EnvState.Release (e + 1)) ∧
    (tick P c).target = (if e = 0 then c.hold else c.target) := by
  simp only [tick, hst]
  split_ifs <;> exact ⟨rfl, rfl, rfl⟩

/-- Counterexample to Claim C4 as stated: `release_len = 1` sample,
identity release curve, first Release tick from a held value of -2.  The
claim predicts `envelope = lerp(-2, 0, curve(1/1)) = 0` and a transition
to `Off` (since the incremented elapsed 1 satisfies
`elapsed >= release_len`); the code instead divides by `release_len + 1`,
yielding envelope `-1`, and stays in `Release(1)`. -/
theorem release_tick_law_cex :
    ((1 : ℚ) ≥ (1 : ℚ)) ∧
    (tick { holdLen := 0, releaseLen := 1, relAmtSqrt := 1, atkAmt := 1,
            lookaheadLen := 0, atkCurve := id, relCurve := id }
        { buffer := [], state := EnvState.Release 0, target := -2, hold := -2,
          envelope := -2, peakDb := 0, peakPos := 2, peakLerpLen := 1 }).envelope
      = -1 ∧
    (tick { holdLen := 0, releaseLen := 1, relAmtSqrt := 1, atkAmt := 1,
            lookaheadLen := 0, atkCurve := id, relCurve := id }
        { buffer := [], state := EnvState.Release 0, target := -2, hold := -2,
          envelope := -2, peakDb := 0, peakPos := 2, peakLerpLen := 1 }).state
      = EnvState.Release 1 ∧
    ((-1 : ℚ) ≠ 0) ∧ EnvState.Release (1 : ℚ) ≠ EnvState.Off := by
  refine ⟨le_rfl, ?_, ?_, by norm_num, by simp⟩
  · norm_num [tick, lerp]
  · norm_num [tick]

/-- Witness for the amended C4: `release_len = 1`, identity curve, second
Release tick (`elapsed = 1`) from target -2: the eased progress is
`2 / 2 = 1`, the envelope reaches 0 and the machine leaves for `Off`. -/
theorem release_tick_law_witness :
    (tick { holdLen := 0, releaseLen := 1, relAmtSqrt := 1, atkAmt := 1,
            lookaheadLen := 0, atkCurve := id, relCurve := id }
        { buffer := [], state := EnvState.Release 1, target := -2, hold := -2,
          envelope := -1, peakDb := 0, peakPos := 2, peakLerpLen := 1 }).envelope
      = 0 ∧
    (tick { holdLen := 0, releaseLen := 1, relAmtSqrt := 1, atkAmt := 1,
            lookaheadLen := 0, atkCurve := id, relCurve := id }
        { buffer := [], state := EnvState.Release 1, target := -2, hold := -2,
          envelope := -1, peakDb := 0, peakPos := 2, peakLerpLen := 1 }).state
      = EnvState.Off := by
  have h := release_tick_law
    { holdLen := 0, releaseLen := 1, relAmtSqrt := 1, atkAmt := 1,
      lookaheadLen := 0, atkCurve := id, relCurve := id }
    { buffer := [], state := EnvState.Release 1, target := -2, hold := -2,
      envelope := -1, peakDb := 0, peakPos := 2, peakLerpLen := 1 }
    1 rfl
  obtain ⟨h1, h2, _⟩ := h
  rw [if_neg (by norm_num)] at h1
  rw [if_pos (by norm_num)] at h2
  refine ⟨?_, h2⟩
  rw [h1]
  norm_num [lerp]

/-! ### Claim theorems: C5, C10 -/

theorem scanFold_le (P : Params) (l : List (ℕ × SampleDB)) (acc : ℚ × ℚ × ℚ) :
    (scanFold P acc l).2.2 ≤ acc.2.2 ∧
    ∀ p ∈ l, 0 < p.2.db → (scanFold P acc l).2.2 ≤ entryReduct P p := by
  induction l generalizing acc with
  | nil => exact ⟨le_rfl, by intro p hp; cases hp⟩
  | cons q t ih =>
    rcases q with ⟨i, s⟩
    simp only [scanFold]
    split_ifs with h1 h2
    · obtain ⟨ha, hb⟩ := ih ((s.db, (i : ℚ),
        calc_atk_reduction s.db (P.atkCurve (((i : ℚ) + 1) / (P.lookaheadLen + 1)))))
      constructor
      · exact le_trans ha (le_of_lt h2)
      · intro p hp hpdb
        rcases List.mem_cons.mp hp with h | h
        · subst h; exact ha
        · exact hb p h hpdb
    · obtain ⟨ha, hb⟩ := ih acc
      refine ⟨ha, ?_⟩
      intro p hp hpdb
      rcases List.mem_cons.mp hp with h | h
      · subst h; exact le_trans ha (not_lt.mp h2)
      · exact hb p h hpdb
    · obtain ⟨ha, hb⟩ := ih acc
      refine ⟨ha, ?_⟩
      intro p hp hpdb
      rcases List.mem_cons.mp hp with h | h
      · subst h; exact absurd hpdb h1
      · exact hb p h hpdb

/-- The scan accumulator is realised by some member of `L`: its stored
level and position are those of an over-threshold entry of `L` and its
current reduction is that entry's eased reduction. -/
def AttainsIn (P : Params) (L : List (ℕ × SampleDB)) (acc : ℚ × ℚ × ℚ) : Prop :=
  ∃ p ∈ L, 0 < p.2.db ∧ p.2.db = acc.1 ∧ ((p.1 : ℚ)) = acc.2.1 ∧
    acc.2.2 = entryReduct P p

theorem scanFold_attains (P : Params) (L : List (ℕ × SampleDB))
    (l : List (ℕ × SampleDB)) (hsub : ∀ p ∈ l, p ∈ L) (acc : ℚ × ℚ × ℚ)
    (hacc : 0 < acc.1 → AttainsIn P L acc) :
    0 < (scanFold P acc l).1 → AttainsIn P L (scanFold P acc l) := by
  induction l generalizing acc with
  | nil => exact hacc
  | cons q t ih =>
    rcases q with ⟨i, s⟩
    simp only [scanFold]
    split_ifs with h1 h2
    · refine ih (fun p hp => hsub p (List.mem_cons_of_mem _ hp)) _ ?_
      intro _
      exact ⟨(i, s), hsub (i, s) (List.mem_cons_self _ _), h1, rfl, rfl, rfl⟩
    · exact ih (fun p hp => hsub p (List.mem_cons_of_mem _ hp)) acc hacc
    · exact ih (fun p hp => hsub p (List.mem_cons_of_mem _ hp)) acc hacc

/-- Claim C5, amended (corrected).  On a full-rescan sample the scan
selects, among the over-threshold buffered samples (enumerated newest
first, so the index is the peak's age), the one whose eased candidate
reduction `-level_db * attack_curve.process((age + 1) / (lookahead_len + 1))`
is smallest (steepest) — not the one maximising `age * level_db`: the
resulting `curr_reduct` is at most 0, at most every over-threshold entry's
eased reduction, and, when a peak was selected, is exactly the eased
reduction of a buffered over-threshold entry carrying the recorded level
and position.  The claim's candidate formula does hold for the selected
peak: the emitted candidate is `curr_reduct * attack_amt`. -/
theorem peak_scan_selection (P : Params) (buffer : List SampleDB) :
    (scanPeaks P buffer).2.2 ≤ 0 ∧
    (∀ p ∈ buffer.reverse.enum, 0 < p.2.db →
      (scanPeaks P buffer).2.2 ≤ entryReduct P p) ∧
    (0 < (scanPeaks P buffer).1 →
      AttainsIn P buffer.reverse.enum (scanPeaks P buffer)) ∧
    (∀ laAcc sampleId : ℤ, ∀ c : ChanState, c.buffer = buffer →
      P.lookaheadLen ≥ 1 → sampleId % laAcc = 0 → 0 < (scanPeaks P buffer).1 →
      (atkCandidate P laAcc sampleId c).1 = (scanPeaks P buffer).2.2 * P.atkAmt) := by
  refine ⟨scanFold_curr_nonpos P _ _ le_rfl, (scanFold_le P _ _).2, ?_, ?_⟩
  · intro hpos
    exact scanFold_attains P _ _ (fun p hp => hp) (0, 0, 0)
      (by intro h; norm_num at h) hpos
  · intro laAcc sampleId c hc hla hmod hpos
    rw [atkCandidate, if_pos ⟨hla, hmod⟩]
    rw [hc]
    rw [if_pos hpos]

/-- Counterexample to Claim C5 as stated: lookahead 2 samples, identity
attack curve, attack amount 1, buffer (oldest first) holding levels
`[-100, 1, 3]`.  The spec's factor `age * level_db` is maximised by the
age-1 peak of level 1 (factor 1 beats factor 0), whose claimed candidate is
`lerp(0, -1, (1+1)/(2+1)) * 1 = -2/3`; the code's scan instead selects the
age-0 peak of level 3 (steepest eased reduction) and emits `-1`. -/
theorem peak_scan_selection_cex :
    specPeakFactor 0 3 < specPeakFactor 1 1 ∧
    scanPeaks
      { holdLen := 0, releaseLen := 0, relAmtSqrt := 1, atkAmt := 1,
        lookaheadLen := 2, atkCurve := id, relCurve := id }
      [{ sample := 0, db := -100 }, { sample := 9/8, db := 1 },
       { sample := 3/2, db := 3 }] = (3, 0, -1) ∧
    lerp 0 (-1 * 1) ((1 + 1) / (2 + 1)) * 1 = -2/3 ∧
    ((-1 : ℚ) * 1 ≠ -2/3) := by
  refine ⟨by norm_num [specPeakFactor], ?_, by norm_num [lerp], by norm_num⟩
  norm_num [scanPeaks, scanFold, List.enum, List.enumFrom, calc_atk_reduction, lerp]

/-- Witness for the amended C5 at the counterexample's buffer: the scan
result is non-positive, bounds each over-threshold entry's eased
reduction, and is attained by the recorded entry. -/
theorem peak_scan_selection_witness :
    (scanPeaks
      { holdLen := 0, releaseLen := 0, relAmtSqrt := 1, atkAmt := 1,
        lookaheadLen := 2, atkCurve := id, relCurve := id }
      [{ sample := 0, db := -100 }, { sample := 9/8, db := 1 },
       { sample := 3/2, db := 3 }]).2.2 ≤ 0 ∧
    (scanPeaks
      { holdLen := 0, releaseLen := 0, relAmtSqrt := 1, atkAmt := 1,
        lookaheadLen := 2, atkCurve := id, relCurve := id }
      [{ sample := 0, db := -100 }, { sample := 9/8, db := 1 },
       { sample := 3/2, db := 3 }]).2.2
      ≤ entryReduct
          { holdLen := 0, releaseLen := 0, relAmtSqrt := 1, atkAmt := 1,
            lookaheadLen := 2, atkCurve := id, relCurve := id }
          (1, { sample := 9/8, db := 1 }) := by
  have h := peak_scan_selection
    { holdLen := 0, releaseLen := 0, relAmtSqrt := 1, atkAmt := 1,
      lookaheadLen := 2, atkCurve := id, relCurve := id }
    [{ sample := 0, db := -100 }, { sample := 9/8, db := 1 },
     { sample := 3/2, db := 3 }]
  refine ⟨h.1, h.2.1 (1, { sample := 9/8, db := 1 }) ?_ (by norm_num)⟩
  norm_num [List.enum, List.enumFrom]

theorem retrigger_peakFields (P : Params) (a : ℚ) (c : ChanState) :
    (retrigger P a c).peakDb = c.peakDb ∧ (retrigger P a c).peakPos = c.peakPos ∧
    (retrigger P a c).peakLerpLen = c.peakLerpLen := by
  unfold retrigger; split_ifs <;> exact ⟨rfl, rfl, rfl⟩

theorem popClamp_peakFields (P : Params) (c : ChanState) (d : SampleDB)
    (c1 : ChanState) (h : popClamp P c = some (d, c1)) :
    c1.peakDb = c.peakDb ∧ c1.peakPos = c.peakPos ∧
    c1.peakLerpLen = c.peakLerpLen := by
  rcases hb : c.buffer with _ | ⟨delay, rest⟩ <;> rw [popClamp, hb] at h
  · cases h
  · dsimp only at h
    split_ifs at h with hcl <;>
      rw [Option.some.injEq, Prod.mk.injEq] at h <;>
      obtain ⟨_, h2⟩ := h <;>
      rw [← h2] <;> exact ⟨rfl, rfl, rfl⟩

/-- Claim C10 (confirmed).  When the configured lookahead length is below
one sample, the attack candidate is 0 for every processed sample: the
full-rescan branch is skipped and the cached-peak read always returns
`None`, because the freshly built channel state carries
`position = 2, lerp_len = 1`, whose advanced window progress
`(2 + 1 + 1) / (1 + 1) = 2` exceeds 1, and the per-sample pipeline leaves
those fields untouched — so gain reduction can then arise only from the
Hold/Release state tick and the post-pop safety clamp. -/
theorem no_attack_below_one_sample (P : Params) (laAcc sampleId : ℤ)
    (ns : SampleDB) (c : ChanState) (hla : P.lookaheadLen < 1)
    (hpos : c.peakPos = 2) (hll : c.peakLerpLen = 1) :
    (∀ n, (ChanState.init n).peakPos = 2 ∧ (ChanState.init n).peakLerpLen = 1) ∧
    (peakRead P.atkCurve c).1 = none ∧
    (atkCandidate P laAcc sampleId c).1 = 0 ∧
    (atkCandidate P laAcc sampleId c).2 = c ∧
    (∀ d env c1, processChannel P laAcc sampleId ns c = some (d, env, c1) →
      c1.peakPos = 2 ∧ c1.peakLerpLen = 1) := by
  have hread : peakRead P.atkCurve c = (none, c) := by
    rw [peakRead, hpos, hll]
    norm_num
  have hcand : ∀ c' : ChanState, c'.peakPos = 2 → c'.peakLerpLen = 1 →
      atkCandidate P laAcc sampleId c' = (0, c') := by
    intro c' hp' hl'
    rw [atkCandidate, if_neg (by intro hand; exact absurd hand.1 (not_le.mpr hla))]
    have : peakRead P.atkCurve c' = (none, c') := by
      rw [peakRead, hp', hl']
      norm_num
    rw [this]
  refine ⟨fun n => ⟨rfl, rfl⟩, by rw [hread], ?_, ?_, ?_⟩
  · rw [hcand c hpos hll]
  · rw [hcand c hpos hll]
  · intro d env c1 h
    obtain ⟨_, hpc⟩ := processChannel_elim P laAcc sampleId ns c d env c1 h
    have hpt : (tick P { c with buffer := c.buffer ++ [ns] }).peakPos = 2 := by
      rw [tick_peakPos]; exact hpos
    have hlt : (tick P { c with buffer := c.buffer ++ [ns] }).peakLerpLen = 1 := by
      rw [tick_peakLerpLen]; exact hll
    rw [hcand _ hpt hlt] at hpc
    have hr := retrigger_peakFields P 0 (tick P { c with buffer := c.buffer ++ [ns] })
    have hpq := popClamp_peakFields P _ d c1 hpc
    refine ⟨?_, ?_⟩
    · rw [hpq.2.1, hr.2.1]; exact hpt
    · rw [hpq.2.2, hr.2.2]; exact hlt

/-- Witness for C10: lookahead below one sample on a freshly built
two-sample channel — the read returns `None` and the candidate is 0. -/
theorem no_attack_below_one_sample_witness :
    (peakRead id (ChanState.init 2)).1 = none ∧
    (atkCandidate
      { holdLen := 0, releaseLen := 0, relAmtSqrt := 1, atkAmt := 1,
        lookaheadLen := 1/2, atkCurve := id, relCurve := id }
      1 0 (ChanState.init 2)).1 = 0 := by
  have h := no_attack_below_one_sample
    { holdLen := 0, releaseLen := 0, relAmtSqrt := 1, atkAmt := 1,
      lookaheadLen := 1/2, atkCurve := id, relCurve := id }
    1 0 { sample := 0, db := -100 } (ChanState.init 2)
    (by norm_num) rfl rfl
  exact ⟨h.2.1, h.2.2.1⟩

/-! ### Claim theorems: C7 -/

theorem ite_gt_eq_max (x y : ℚ) : (if x > y then x else y) = max x y := by
  split_ifs with h
  · exact (max_eq_left (le_of_lt h)).symm
  · exact (max_eq_right (not_lt.mp h)).symm

theorem foldl_max_max (l : List ℚ) (a b : ℚ) :
    l.foldl max (max a b) = max a (l.foldl max b) := by
  induction l generalizing a b with
  | nil => rfl
  | cons x t ih =>
    show t.foldl max (max (max a b) x) = max a (t.foldl max (max b x))
    rw [max_assoc, ih]

theorem foldl_max_eq_reduceMax (l : List ℚ) (h : l ≠ []) (a : ℚ) :
    l.foldl max a = max a (reduceMax l) := by
  rcases l with _ | ⟨x, t⟩
  · exact absurd rfl h
  · exact foldl_max_max t a x

theorem zipmax_foldl (xs : List ℚ) :
    ∀ (ys : List ℚ), xs.length = ys.length → ∀ (a b : ℚ),
      ((xs.zip ys).map (fun p => if p.1 > p.2 then p.1 else p.2)).foldl max (max a b)
        = max (xs.foldl max a) (ys.foldl max b) := by
  induction xs with
  | nil =>
    intro ys hlen a b
    cases ys
    · rfl
    · simp at hlen
  | cons x xt ih =>
    intro ys hlen a b
    cases ys with
    | nil => simp at hlen
    | cons y yt =>
      have hlen' : xt.length = yt.length := by simpa using hlen
      show ((xt.zip yt).map _).foldl max (max (max a b) (if x > y then x else y))
        = max ((x :: xt).foldl max a) ((y :: yt).foldl max b)
      rw [ite_gt_eq_max, max_max_max_comm, ih yt hlen' (max a x) (max b y)]
      rfl

theorem reduceMax_zipmax (xs ys : List ℚ) (hlen : xs.length = ys.length)
    (hne : xs ≠ []) :
    reduceMax ((xs.zip ys).map (fun p => if p.1 > p.2 then p.1 else p.2))
      = max (reduceMax xs) (reduceMax ys) := by
  rcases xs with _ | ⟨x, xt⟩
  · exact absurd rfl hne
  rcases ys with _ | ⟨y, yt⟩
  · simp at hlen
  have hlen' : xt.length = yt.length := by simpa using hlen
  show ((xt.zip yt).map _).foldl max (if x > y then x else y) = _
  rw [ite_gt_eq_max]
  exact zipmax_foldl xt yt hlen' x y

theorem chunkLerped_length (len : ℚ) (vec : List ℚ) :
    ∀ b : ℕ, (chunkLerped len b vec).length = vec.length := by
  induction vec with
  | nil => intro b; rfl
  | cons d t ih => intro b; simp [chunkLerped, ih]

theorem simdLerp_zero (d t : ℚ) : simdLerp 0 d t = d * t := by
  unfold simdLerp; ring

theorem foldl_max_chunkLerped (len : ℚ) (hlen : 0 < len) (vec : List ℚ) :
    ∀ (b : ℕ) (A : ℚ), 0 ≤ A →
      (chunkLerped len b vec).foldl max A = maxFromPeaks len b A vec := by
  induction vec with
  | nil => intro b A _; rfl
  | cons d t ih =>
    intro b A hA
    simp only [chunkLerped, maxFromPeaks, List.foldl_cons, simdLerp_zero]
    split_ifs with hd
    · exact ih (b + 1) _ (le_trans hA (le_max_left _ _))
    · have hc : d * ((b : ℚ) / len) ≤ 0 :=
        mul_nonpos_iff.mpr (Or.inr ⟨not_lt.mp hd,
          div_nonneg (Nat.cast_nonneg b) (le_of_lt hlen)⟩)
      rw [max_eq_left (le_trans hc hA)]
      exact ih (b + 1) A hA

theorem maxFromPeaks_ge (len : ℚ) (vec : List ℚ) :
    ∀ (b : ℕ) (A : ℚ), A ≤ maxFromPeaks len b A vec := by
  induction vec with
  | nil => intro b A; exact le_rfl
  | cons d t ih =>
    intro b A
    simp only [maxFromPeaks]
    split_ifs with hd
    · exact le_trans (le_max_left _ _) (ih (b + 1) _)
    · exact ih (b + 1) A

theorem maxFromPeaks_append (len : ℚ) (u : List ℚ) :
    ∀ (v : List ℚ) (b : ℕ) (A : ℚ),
      maxFromPeaks len b A (u ++ v)
        = maxFromPeaks len (b + u.length) (maxFromPeaks len b A u) v := by
  induction u with
  | nil => intro v b A; simp [maxFromPeaks]
  | cons d t ih =>
    intro v b A
    simp only [List.cons_append, maxFromPeaks, List.length_cons, List.append_eq]
    rw [ih v (b + 1) _]
    have he : b + 1 + t.length = b + (t.length + 1) := by omega
    rw [he]

theorem maxFromPeaks_skip (len : ℚ) :
    ∀ (vec : List ℚ), (∀ d ∈ vec, ¬(0 < d)) →
      ∀ (b : ℕ) (A : ℚ), maxFromPeaks len b A vec = A
  | [], _, _, _ => rfl
  | d :: t, hall, b, A => by
    simp only [maxFromPeaks]
    rw [if_neg (hall d (List.mem_cons_self d t))]
    exact maxFromPeaks_skip len t (fun x hx => hall x (List.mem_cons_of_mem d hx)) (b + 1) A

theorem chunkStep_length (len : ℚ) (b : ℕ) (m vec : List ℚ)
    (hl : vec.length = m.length) : (chunkStep len b m vec).length = m.length := by
  unfold chunkStep
  split_ifs
  · simp [List.length_zip, chunkLerped_length, hl]
  · rfl

theorem reduceMax_chunkStep (len : ℚ) (hlen : 0 < len) (b : ℕ) (m vec : List ℚ)
    (hne : m ≠ []) (hl : vec.length = m.length) (hA : 0 ≤ reduceMax m) :
    reduceMax (chunkStep len b m vec) = maxFromPeaks len b (reduceMax m) vec := by
  unfold chunkStep
  split_ifs with hany
  · have hvne : vec ≠ [] := by
      intro hv; rw [hv] at hany; simp at hany
    have hlerpne : chunkLerped len b vec ≠ [] := by
      intro hv
      have h2 := chunkLerped_length len vec b
      rw [hv] at h2
      exact hvne (List.length_eq_zero.mp h2.symm)
    rw [reduceMax_zipmax m (chunkLerped len b vec)
      (by rw [chunkLerped_length]; exact hl.symm) hne]
    rw [← foldl_max_eq_reduceMax (chunkLerped len b vec) hlerpne (reduceMax m)]
    exact foldl_max_chunkLerped len hlen vec b (reduceMax m) hA
  · have hall : ∀ d ∈ vec, ¬(0 < d) := by
      simp only [List.any_eq_true, decide_eq_true_eq, not_exists] at hany
      intro d hd hlt
      exact hany d ⟨hd, hlt⟩
    exact (maxFromPeaks_skip len vec hall b (reduceMax m)).symm

theorem simdFold_reduceMax (L : ℕ) (len : ℚ) (hlen : 0 < len) :
    ∀ (chunks : List (List ℚ)) (b : ℕ) (m : List ℚ), m ≠ [] → m.length = L →
      (∀ v ∈ chunks, v.length = L) → 0 ≤ reduceMax m →
      reduceMax (simdFold L len b m chunks)
        = maxFromPeaks len b (reduceMax m) chunks.flatten
  | [], _, _, _, _, _, _ => rfl
  | vec :: rest, b, m, hne, hmL, hch, hA => by
    have hvl : vec.length = m.length := by
      rw [hmL]; exact hch vec (List.mem_cons_self _ _)
    have hstep := reduceMax_chunkStep len hlen b m vec hne hvl hA
    have hlen1 : (chunkStep len b m vec).length = m.length :=
      chunkStep_length len b m vec hvl
    have hne1 : chunkStep len b m vec ≠ [] := by
      intro hx
      rw [hx] at hlen1
      exact hne (List.length_eq_zero.mp hlen1.symm)
    have hA1 : 0 ≤ reduceMax (chunkStep len b m vec) := by
      rw [hstep]; exact le_trans hA (maxFromPeaks_ge len vec b _)
    show reduceMax (simdFold L len (b + L) (chunkStep len b m vec) rest)
      = maxFromPeaks len b (reduceMax m) ((vec :: rest).flatten)
    rw [simdFold_reduceMax L len hlen rest (b + L) (chunkStep len b m vec) hne1
      (hlen1.trans hmL) (fun v hv => hch v (List.mem_cons_of_mem _ hv)) hA1]
    rw [List.flatten_cons, maxFromPeaks_append len vec rest.flatten b (reduceMax m)]
    rw [hstep]
    have he : b + L = b + vec.length := by rw [hvl, hmL]
    rw [he]

theorem foldl_max_replicate_zero : ∀ k : ℕ, (List.replicate k (0 : ℚ)).foldl max 0 = 0
  | 0 => rfl
  | k + 1 => by
    show (List.replicate k (0 : ℚ)).foldl max (max 0 0) = 0
    rw [max_self]
    exact foldl_max_replicate_zero k

theorem reduceMax_replicate_zero (L : ℕ) : reduceMax (List.replicate L (0 : ℚ)) = 0 := by
  cases L with
  | zero => rfl
  | succ k => exact foldl_max_replicate_zero k

theorem scanFold_id_eq (P : Params) (hcurve : P.atkCurve = id) :
    ∀ (sl : List SampleDB) (i0 : ℕ) (A : ℚ) (acc : ℚ × ℚ × ℚ),
      acc.2.2 = -A → 0 ≤ A →
      (scanFold P acc (List.enumFrom i0 sl)).2.2
        = -(maxFromPeaks (P.lookaheadLen + 1) (i0 + 1) A (sl.map SampleDB.db))
  | [], _, _, _, hacc, _ => by simpa [scanFold, maxFromPeaks] using hacc
  | s :: rest, i0, A, acc, hacc, hA => by
    rw [List.enumFrom_cons]
    simp only [scanFold, List.map_cons, maxFromPeaks, hcurve, id_eq]
    have hred : calc_atk_reduction s.db (((i0 : ℚ) + 1) / (P.lookaheadLen + 1))
        = -(s.db * (((i0 : ℚ) + 1) / (P.lookaheadLen + 1))) := by
      unfold calc_atk_reduction lerp; ring
    have hcast : (((i0 + 1 : ℕ)) : ℚ) = (i0 : ℚ) + 1 := by push_cast; ring
    rw [hcast]
    split_ifs with hdb hlt
    · have hccA : A < s.db * (((i0 : ℚ) + 1) / (P.lookaheadLen + 1)) := by
        rw [hred, hacc] at hlt; linarith
      rw [scanFold_id_eq P hcurve rest (i0 + 1)
        (s.db * (((i0 : ℚ) + 1) / (P.lookaheadLen + 1))) _ hred
        (le_trans hA (le_of_lt hccA))]
      rw [max_eq_right (le_of_lt hccA)]
    · have hle : s.db * (((i0 : ℚ) + 1) / (P.lookaheadLen + 1)) ≤ A := by
        rw [hred, hacc] at hlt
        have := not_lt.mp hlt
        linarith
      rw [scanFold_id_eq P hcurve rest (i0 + 1) A acc hacc hA, max_eq_left hle]
    · exact scanFold_id_eq P hcurve rest (i0 + 1) A acc hacc hA

theorem scanPeaks_id_eq (P : Params) (hcurve : P.atkCurve = id)
    (buffer : List SampleDB) :
    (scanPeaks P buffer).2.2
      = -(maxFromPeaks (P.lookaheadLen + 1) 1 0 (buffer.reverse.map SampleDB.db)) := by
  rw [scanPeaks]
  have h := scanFold_id_eq P hcurve buffer.reverse 0 0 (0, 0, 0) (by norm_num) le_rfl
  simpa [List.enum] using h

/-- Claim C7, amended (corrected).  The vectorized search of
`src/simd.rs` applies no easing curve (its weight is the raw
`index / len`), so it does not in general return the scalar scan's
candidate: the two agree exactly on the identity attack curve, provided
the `len` argument is `lookahead_len + 1` and the lane batches flatten to
the buffer's dB values in the scalar scan's newest-first order (the
module is moreover not referenced by the engine — dead code).  With a
non-identity attack curve they diverge (see the counterexample). -/
theorem simd_scalar_search (P : Params) (hcurve : P.atkCurve = id)
    (hla : 0 ≤ P.lookaheadLen) (L : ℕ) (hL : 1 ≤ L)
    (buffer : List SampleDB) (chunks : List (List ℚ))
    (hflat : chunks.flatten = buffer.reverse.map SampleDB.db)
    (hchunk : ∀ v ∈ chunks, v.length = L) :
    simd_max_reduction L chunks (P.lookaheadLen + 1) = (scanPeaks P buffer).2.2 := by
  have hlen : (0 : ℚ) < P.lookaheadLen + 1 := by linarith
  have hm : (List.replicate L (0 : ℚ)) ≠ [] := by
    intro hx
    have h2 := List.length_replicate L (0 : ℚ)
    rw [hx] at h2
    simp at h2
    omega
  rw [simd_max_reduction,
    simdFold_reduceMax L (P.lookaheadLen + 1) hlen chunks 1 (List.replicate L 0) hm
      (List.length_replicate L 0) hchunk (by rw [reduceMax_replicate_zero]),
    reduceMax_replicate_zero, hflat, scanPeaks_id_eq P hcurve buffer]
  ring

/-- Counterexample to Claim C7 as stated: with the shaped attack curve
`x ^ 2` (power-2 ease-in), lookahead 2 samples and buffered dB values
`[3, 1]` (newest first), the scalar scan returns `-4/9` while the
vectorized search — which never applies the attack curve — returns `-1`
even with the matching `len = lookahead_len + 1`. -/
theorem simd_scalar_search_cex :
    simd_max_reduction 1 [[3], [1]] ((2 : ℚ) + 1) = -1 ∧
    (scanPeaks
      { holdLen := 0, releaseLen := 0, relAmtSqrt := 1, atkAmt := 1,
        lookaheadLen := 2, atkCurve := fun x => x * x, relCurve := id }
      [{ sample := 9/8, db := 1 }, { sample := 3/2, db := 3 }]).2.2 = -4/9 ∧
    ((-1 : ℚ) ≠ -4/9) ∧
    ([[3], [1]] : List (List ℚ)).flatten
      = ([{ sample := 9/8, db := 1 }, { sample := 3/2, db := 3 }] :
          List SampleDB).reverse.map SampleDB.db := by
  refine ⟨?_, ?_, by norm_num, by norm_num [SampleDB.db]⟩
  · norm_num [simd_max_reduction, simdFold, chunkStep, chunkLerped, simdLerp,
      reduceMax, List.any]
  · norm_num [scanPeaks, scanFold, List.enum, List.enumFrom, calc_atk_reduction, lerp]

/-- Witness for the amended C7: lane width 1, batches `[[3], [1]]`,
identity attack curve, lookahead 2 — both searches return `-1`. -/
theorem simd_scalar_search_witness :
    simd_max_reduction 1 [[3], [1]] ((2 : ℚ) + 1)
      = (scanPeaks
          { holdLen := 0, releaseLen := 0, relAmtSqrt := 1, atkAmt := 1,
            lookaheadLen := 2, atkCurve := id, relCurve := id }
          [{ sample := 9/8, db := 1 }, { sample := 3/2, db := 3 }]).2.2 := by
  exact simd_scalar_search
    { holdLen := 0, releaseLen := 0, relAmtSqrt := 1, atkAmt := 1,
      lookaheadLen := 2, atkCurve := id, relCurve := id }
    rfl (by norm_num) 1 le_rfl
    [{ sample := 9/8, db := 1 }, { sample := 3/2, db := 3 }]
    [[3], [1]] (by norm_num [SampleDB.db]) (by intro v hv; fin_cases hv <;> rfl)

end Lerp2zero
